import Mathlib

/-!
Verification of the plugin-attachment protocol of `click-plugins`.

The repository ships its tests (`tests/test_plugins.py`) and an example CLI
(`example/PrintIt/printit/cli.py`); the core module defining `with_plugins`
and the failure-stub command is not part of the provided sources.  Every
definition below is therefore modelled from the specification (`spec.md`),
which describes the two components precisely: a Plugin Resolver that turns
one descriptor into `Ok(Command) | Err(detail)`, and a Group Augmenter that
installs, for each descriptor in order, either the loaded command or a
Failure-Stub command under the descriptor's name.
-/

namespace ClickPlugins

/-- Modelled from the spec (§3 Data Model, "Command"): the host framework's
command capability, `{name, invoke(args) → exit status, help-text}`.
Invocation is modelled as a pure function from the argument list to an exit
status together with the emitted output lines (text rendering itself is the
external host framework's job, out of scope per §1). -/
structure Cmd where
  name : String
  invoke : List String → Nat × List String

/-- Modelled from the spec (§4.1): what executing a descriptor's opaque
`loader` reference does.  Either it produces an object — which satisfies the
"is a command" capability or not — or it raises, carrying a human-readable
failure detail (message and trace text, §4.1). -/
inductive LoaderResult where
  | ok (c : Cmd) : LoaderResult
  | notCommand : LoaderResult
  | raises (detail : String) : LoaderResult

/-- Modelled from the spec (§3): a Plugin Descriptor, a `name` plus an opaque
`loader` reference capable of producing a command object.  The loader's
behaviour is opaque Python code, so it is embedded as its already-materialized
result. -/
structure Descriptor where
  name : String
  loader : LoaderResult

/-- Modelled from the spec (§3): a Resolution Outcome, `Ok(Command)` or
`Err(captured failure detail)`. -/
inductive Outcome where
  | ok (c : Cmd) : Outcome
  | err (detail : String) : Outcome

/-- Modelled from the spec (§4.1): the distinct detail message used when the
loaded object does not satisfy the command capability. -/
def notCommandDetail : String := "resolved object is not a command"

/-- Modelled from the spec (§4.1, Plugin Resolver): any failure while the
loader executes becomes `Err` with the captured detail; a loaded object that
is not a command becomes `Err` with a distinct detail message; a loaded
command becomes `Ok`.  Totality of this function is the spec's "never
raises/propagates to the caller". -/
def resolve (d : Descriptor) : Outcome :=
  match d.loader with
  | .ok c => .ok c
  | .notCommand => .err notCommandDetail
  | .raises detail => .err detail

/-- Modelled from the spec (§3, §4.2): the Failure-Stub Command.  It bears
the failed descriptor's name and carries the captured error immutably; its
`invoke` deterministically fails with a non-zero status after emitting the
captured diagnostic detail, for every argument list — including a help flag,
since help rendering also triggers the failure path (§4.2). -/
def brokenCommand (name detail : String) : Cmd where
  name := name
  invoke := fun _ => (1, ["Traceback (captured at load time):", detail])

/-- Modelled from the spec (§4.2 step 2): the command actually installed for
a descriptor — the loaded command on `Ok`, the Failure-Stub on `Err`. -/
def cmdOf (d : Descriptor) : Cmd :=
  match resolve d with
  | .ok c => c
  | .err detail => brokenCommand d.name detail

/-- Modelled from the spec (§3, "Command Group"): the group's subcommand
table, a name-to-command mapping whose insertion order may matter for help
listings. -/
abbrev Table := List (String × Cmd)

/-- The keys of a subcommand table, in insertion order. -/
def keys (t : Table) : List String := t.map Prod.fst

/-- Modelled from the spec (§3 invariants): inserting a command into the
subcommand table under a name.  A name collision is resolved last-insert-wins
(the mapping is updated in place, keeping the original listing position, as a
name-keyed dictionary does); a fresh name is appended at the end. -/
def add_command (t : Table) (n : String) (c : Cmd) : Table :=
  if t.any (fun p => p.1 = n) then
    t.map (fun p => if p.1 = n then (n, c) else p)
  else
    t ++ [(n, c)]

/-- Modelled from the spec (§4.2 algorithm): fold the ordered descriptor
sequence over the target's subcommand table, installing for each descriptor
either the loaded command or its Failure-Stub under the descriptor's name. -/
def augTable (t : Table) (ds : List Descriptor) : Table :=
  ds.foldl (fun acc d => add_command acc d.name (cmdOf d)) t

/-- Modelled from the spec (§4.2): the augmentation target — either a command
group (exposing a subcommand table) or a bare command, which lacks the group
capability. -/
inductive Target where
  | group (t : Table) : Target
  | command (c : Cmd) : Target

/-- Modelled from the spec (§7, error class 1): the usage/programming error
raised fatally when the augmented target is not a group. -/
inductive AugError where
  | typeError : AugError

/-- Modelled from the spec (§4.2, Group Augmenter): the decorator applied to
a target.  A non-group target fails immediately with a type-contract error,
before any descriptor is touched; a group target is returned with every
descriptor's command or Failure-Stub installed.  The `Except` result is the
exception channel: `.error` is the only failure ever propagated. -/
def with_plugins (ds : List Descriptor) : Target → Except AugError Target
  | .group t => .ok (.group (augTable t ds))
  | .command _ => .error .typeError

/-- Modelled from the spec (§6, host framework): subcommand lookup in the
group's table by name. -/
def get_command (t : Table) (n : String) : Option Cmd :=
  (t.find? (fun p => p.1 = n)).map Prod.snd

/-- Modelled from the spec (§6, §7): the external dispatch engine's behaviour
on an augmented group.  Invoking the bare group succeeds (exit 0) and emits
the subcommand listing (one line per table entry, bearing its name); invoking
`<group> <name> <args>` looks up `name` and runs the found command on `args`;
an unknown name is the framework's usage error (exit 2). -/
def invokeGroup (t : Table) (args : List String) : Nat × List String :=
  match args with
  | [] => (0, keys t)
  | n :: rest =>
    match get_command t n with
    | some c => c.invoke rest
    | none => (2, ["Error: no such command " ++ n])

/-- Modelled from the spec (§4.2 input): the source of plugin descriptors —
either a direct ordered sequence, or an identifier naming a registry group to
be expanded by the external discovery collaborator. -/
inductive PluginSource where
  | direct (ds : List Descriptor) : PluginSource
  | registryGroup (ident : String) : PluginSource

/-- Modelled from the spec (§4.2 step 1): materialize the descriptor source
into one ordered sequence, the registry shape being expanded by the external
discovery collaborator (here an abstract registry function). -/
def materialize (registry : String → List Descriptor) : PluginSource → List Descriptor
  | .direct ds => ds
  | .registryGroup ident => registry ident

/-- Modelled from the spec (§4.2): `with_plugins` on an unnormalized plugin
source: materialize first, then augment. -/
def with_plugins_source (registry : String → List Descriptor)
    (src : PluginSource) (t : Target) : Except AugError Target :=
  with_plugins (materialize registry src) t

/-- The entries of a table whose names are outside `names`, in order: the
sub-table of non-plugin entries when `names` is the descriptor name list. -/
def filterOut (names : List String) (t : Table) : Table :=
  t.filter (fun p => decide (p.1 ∉ names))

/-! ### Basic lemmas about the subcommand table -/

theorem augTable_nil (t : Table) : augTable t [] = t := rfl

theorem augTable_cons (t : Table) (d : Descriptor) (ds : List Descriptor) :
    augTable t (d :: ds) = augTable (add_command t d.name (cmdOf d)) ds := rfl

theorem augTable_append (t : Table) (l l' : List Descriptor) :
    augTable t (l ++ l') = augTable (augTable t l) l' :=
  List.foldl_append _ _ _ _

theorem any_key_iff (t : Table) (n : String) :
    (t.any fun p => p.1 = n) = true ↔ n ∈ keys t := by
  rw [List.any_eq_true]
  constructor
  · rintro ⟨p, hp, hpn⟩
    exact List.mem_map.mpr ⟨p, hp, of_decide_eq_true hpn⟩
  · intro h
    rcases List.mem_map.mp h with ⟨p, hp, hpn⟩
    exact ⟨p, hp, decide_eq_true hpn⟩

theorem mem_keys_cons (p : String × Cmd) (t : Table) (n : String) :
    n ∈ keys (p :: t) ↔ n = p.1 ∨ n ∈ keys t := by
  simp [keys]

theorem keys_replace (t : Table) (n : String) (c : Cmd) :
    keys (t.map fun p => if p.1 = n then (n, c) else p) = keys t := by
  induction t with
  | nil => rfl
  | cons p t ih =>
    by_cases h : p.1 = n
    · simp [keys, h] at ih ⊢
      exact ih
    · simp [keys, h] at ih ⊢
      exact ih

theorem keys_add_command (t : Table) (n : String) (c : Cmd) :
    keys (add_command t n c) = if n ∈ keys t then keys t else keys t ++ [n] := by
  by_cases h : n ∈ keys t
  · rw [if_pos h]
    unfold add_command
    rw [if_pos ((any_key_iff t n).mpr h)]
    exact keys_replace t n c
  · rw [if_neg h]
    unfold add_command
    rw [if_neg fun hc => h ((any_key_iff t n).mp hc)]
    simp [keys]

theorem mem_keys_add_command_self (t : Table) (n : String) (c : Cmd) :
    n ∈ keys (add_command t n c) := by
  rw [keys_add_command]
  by_cases h : n ∈ keys t <;> simp [h]

theorem mem_keys_add_command_of_mem (t : Table) (n m : String) (c : Cmd)
    (h : m ∈ keys t) : m ∈ keys (add_command t n c) := by
  rw [keys_add_command]
  by_cases hn : n ∈ keys t <;> simp [hn, h]

theorem nodup_keys_add_command (t : Table) (n : String) (c : Cmd)
    (h : (keys t).Nodup) : (keys (add_command t n c)).Nodup := by
  rw [keys_add_command]
  by_cases hn : n ∈ keys t
  · simpa [hn]
  · simp [hn, List.nodup_append, h]

theorem find_replace_self (t : Table) (n : String) (c : Cmd) (h : n ∈ keys t) :
    ((t.map fun p => if p.1 = n then (n, c) else p).find? fun p => p.1 = n) =
      some (n, c) := by
  induction t with
  | nil => cases h
  | cons p t ih =>
    by_cases hp : p.1 = n
    · simp [hp, List.find?]
    · have h' : n ∈ keys t := by
        simp [keys] at h
        rcases h with h | h
        · exact absurd h.symm hp
        · simpa [keys] using h
      simp only [List.map_cons, if_neg hp]
      rw [List.find?_cons_of_neg _ (by simpa using hp), ih h']

theorem find_replace_other (t : Table) (n m : String) (c : Cmd) (h : m ≠ n) :
    ((t.map fun p => if p.1 = n then (n, c) else p).find? fun p => p.1 = m) =
      (t.find? fun p => p.1 = m) := by
  induction t with
  | nil => rfl
  | cons p t ih =>
    by_cases hp : p.1 = m
    · have hpn : ¬ p.1 = n := fun hc => h (hp ▸ hc.symm ▸ rfl)
      simp only [List.map_cons, if_neg hpn]
      rw [List.find?_cons_of_pos _ (by simpa using hp),
        List.find?_cons_of_pos _ (by simpa using hp)]
    · by_cases hpn : p.1 = n
      · simp only [List.map_cons, if_pos hpn]
        rw [List.find?_cons_of_neg _ (by simpa using fun hc => h hc.symm),
          List.find?_cons_of_neg _ (by simpa using hp), ih]
      · simp only [List.map_cons, if_neg hpn]
        rw [List.find?_cons_of_neg _ (by simpa using hp),
          List.find?_cons_of_neg _ (by simpa using hp), ih]

theorem find_append_single_self (t : Table) (n : String) (c : Cmd) :
    n ∉ keys t → ((t ++ [(n, c)]).find? fun p => p.1 = n) = some (n, c) := by
  induction t with
  | nil =>
    intro _
    simp [List.find?]
  | cons p t ih =>
    intro h
    have hp : ¬ p.1 = n := fun hc => h ((mem_keys_cons p t n).mpr (Or.inl hc.symm))
    have h' : n ∉ keys t := fun hc => h ((mem_keys_cons p t n).mpr (Or.inr hc))
    rw [List.cons_append, List.find?_cons_of_neg _ (by simpa using hp), ih h']

theorem find_append_single_other (t : Table) (n m : String) (c : Cmd) (h : m ≠ n) :
    ((t ++ [(n, c)]).find? fun p => p.1 = m) = (t.find? fun p => p.1 = m) := by
  induction t with
  | nil =>
    rw [List.nil_append, List.find?_cons_of_neg _ (by simpa using Ne.symm h),
      List.find?_nil]
  | cons p t ih =>
    by_cases hp : p.1 = m
    · rw [List.cons_append, List.find?_cons_of_pos _ (by simpa using hp),
        List.find?_cons_of_pos _ (by simpa using hp)]
    · rw [List.cons_append, List.find?_cons_of_neg _ (by simpa using hp),
        List.find?_cons_of_neg _ (by simpa using hp), ih]

theorem get_add_command_self (t : Table) (n : String) (c : Cmd) :
    get_command (add_command t n c) n = some c := by
  unfold get_command add_command
  by_cases h : n ∈ keys t
  · rw [if_pos ((any_key_iff t n).mpr h), find_replace_self t n c h]
    rfl
  · rw [if_neg fun hc => h ((any_key_iff t n).mp hc), find_append_single_self t n c h]
    rfl

theorem get_add_command_other (t : Table) (n m : String) (c : Cmd) (h : m ≠ n) :
    get_command (add_command t n c) m = get_command t m := by
  unfold get_command add_command
  by_cases hany : (t.any fun p => p.1 = n) = true
  · rw [if_pos hany, find_replace_other t n m c h]
  · rw [if_neg hany, find_append_single_other t n m c h]

theorem filterOut_cons (names : List String) (p : String × Cmd) (t : Table) :
    filterOut names (p :: t) =
      if p.1 ∈ names then filterOut names t else p :: filterOut names t := by
  unfold filterOut
  by_cases h : p.1 ∈ names
  · rw [if_pos h, List.filter_cons_of_neg (by simp [h])]
  · rw [if_neg h, List.filter_cons_of_pos (by simp [h])]

theorem filter_replace (t : Table) (n : String) (c : Cmd)
    (names : List String) (h : n ∈ names) :
    filterOut names (t.map fun p => if p.1 = n then (n, c) else p) =
      filterOut names t := by
  induction t with
  | nil => rfl
  | cons p t ih =>
    by_cases hp : p.1 = n
    · simp only [List.map_cons, if_pos hp]
      rw [filterOut_cons, filterOut_cons, if_pos h, if_pos (hp ▸ h), ih]
    · simp only [List.map_cons, if_neg hp]
      rw [filterOut_cons, filterOut_cons]
      by_cases hm : p.1 ∈ names
      · rw [if_pos hm, if_pos hm, ih]
      · rw [if_neg hm, if_neg hm, ih]

theorem filterOut_append_single (t : Table) (n : String) (c : Cmd)
    (names : List String) (h : n ∈ names) :
    filterOut names (t ++ [(n, c)]) = filterOut names t := by
  unfold filterOut
  rw [List.filter_append]
  simp [h]

theorem filterOut_add_command (t : Table) (n : String) (c : Cmd)
    (names : List String) (h : n ∈ names) :
    filterOut names (add_command t n c) = filterOut names t := by
  unfold add_command
  by_cases hany : (t.any fun p => p.1 = n) = true
  · rw [if_pos hany, filter_replace t n c names h]
  · rw [if_neg hany, filterOut_append_single t n c names h]

/-! ### Lemmas about the augmentation fold -/

theorem mem_keys_augTable_of_mem (ds : List Descriptor) (t : Table) (m : String)
    (h : m ∈ keys t) : m ∈ keys (augTable t ds) := by
  induction ds generalizing t with
  | nil => exact h
  | cons d ds ih => exact ih _ (mem_keys_add_command_of_mem _ _ _ _ h)

theorem mem_keys_augTable_self (ds : List Descriptor) (t : Table) (d : Descriptor) :
    d ∈ ds → d.name ∈ keys (augTable t ds) := by
  induction ds generalizing t with
  | nil => intro h; cases h
  | cons d0 ds ih =>
    intro h
    rw [augTable_cons]
    rcases List.mem_cons.mp h with h0 | h1
    · subst h0
      exact mem_keys_augTable_of_mem ds _ _ (mem_keys_add_command_self _ _ _)
    · exact ih _ h1

theorem nodup_keys_augTable (ds : List Descriptor) (t : Table) :
    (keys t).Nodup → (keys (augTable t ds)).Nodup := by
  induction ds generalizing t with
  | nil => exact fun h => h
  | cons d ds ih => exact fun h => ih _ (nodup_keys_add_command _ _ _ h)

theorem get_augTable_of_not_mem (ds : List Descriptor) (t : Table) (n : String) :
    (∀ d ∈ ds, d.name ≠ n) → get_command (augTable t ds) n = get_command t n := by
  induction ds generalizing t with
  | nil => exact fun _ => rfl
  | cons d ds ih =>
    intro h
    rw [augTable_cons, ih _ (fun d' hd' => h d' (List.mem_cons_of_mem _ hd')),
      get_add_command_other _ _ _ _ (Ne.symm (h d (List.mem_cons_self _ _)))]

theorem get_augTable_last (t : Table) (pre post : List Descriptor) (d : Descriptor)
    (h : ∀ d' ∈ post, d'.name ≠ d.name) :
    get_command (augTable t (pre ++ d :: post)) d.name = some (cmdOf d) := by
  rw [augTable_append, augTable_cons, get_augTable_of_not_mem post _ _ h,
    get_add_command_self]

theorem filterOut_augTable (ds : List Descriptor) (t : Table) (names : List String) :
    (∀ d ∈ ds, d.name ∈ names) →
      filterOut names (augTable t ds) = filterOut names t := by
  induction ds generalizing t with
  | nil => exact fun _ => rfl
  | cons d ds ih =>
    intro h
    rw [augTable_cons, ih _ (fun d' hd' => h d' (List.mem_cons_of_mem _ hd')),
      filterOut_add_command _ _ _ _ (h d (List.mem_cons_self _ _))]

/-! ### Concrete commands and descriptors for witnesses and counterexamples -/

/-- A concrete loaded command named `a` that succeeds and prints `one`. -/
def cmdOne : Cmd := ⟨"a", fun _ => (0, ["one"])⟩

/-- A second concrete loaded command, also named `a`, that prints `two`. -/
def cmdTwo : Cmd := ⟨"a", fun _ => (0, ["two"])⟩

/-- A descriptor whose loader succeeds with `cmdOne`. -/
def goodD1 : Descriptor := ⟨"a", .ok cmdOne⟩

/-- A descriptor with the same name whose loader succeeds with `cmdTwo`. -/
def goodD2 : Descriptor := ⟨"a", .ok cmdTwo⟩

/-- A descriptor named `b` whose loader raises with detail `boom`. -/
def brokenD : Descriptor := ⟨"b", .raises "boom"⟩

/-! ### Claim theorems -/

/-- Claim C1: resolving a descriptor never propagates an exception to the
caller of the Group Augmenter — on a group target `with_plugins` always
returns `.ok`, every descriptor (broken or not) still gets its entry, and a
failed resolution is converted into a Failure-Stub carrying the captured
detail. -/
theorem c1_resolution_never_propagates (ds : List Descriptor) (t : Table) :
    with_plugins ds (.group t) = .ok (.group (augTable t ds)) ∧
    (∀ d ∈ ds, d.name ∈ keys (augTable t ds)) ∧
    (∀ d : Descriptor, ∀ detail : String,
      resolve d = .err detail → cmdOf d = brokenCommand d.name detail) := by
  refine ⟨rfl, fun d hd => mem_keys_augTable_self ds t d hd, ?_⟩
  intro d detail hres
  unfold cmdOf
  rw [hres]

/-- Witness for C1 at the concrete broken descriptor `brokenD`. -/
theorem c1_resolution_never_propagates_witness :
    with_plugins [brokenD] (.group []) = .ok (.group (augTable [] [brokenD])) ∧
    brokenD.name ∈ keys (augTable [] [brokenD]) ∧
    cmdOf brokenD = brokenCommand "b" "boom" :=
  ⟨(c1_resolution_never_propagates [brokenD] []).1,
   (c1_resolution_never_propagates [brokenD] []).2.1 brokenD (by simp),
   (c1_resolution_never_propagates [brokenD] []).2.2 brokenD "boom" rfl⟩

/-- Claim C2: for a descriptor whose loader raises or yields a non-command,
invoking the resulting subcommand under the augmented group — the
Failure-Stub installed for it, i.e. with no later descriptor shadowing its
name — exits non-zero and shows the captured detail, for every argument
list: no arguments, extra arguments, or a help flag alike. -/
theorem c2_broken_invocation_always_fails (t : Table) (pre post : List Descriptor)
    (d : Descriptor) (detail : String) (args : List String)
    (hres : resolve d = .err detail)
    (hpost : ∀ d' ∈ post, d'.name ≠ d.name) :
    (invokeGroup (augTable t (pre ++ d :: post)) (d.name :: args)).1 ≠ 0 ∧
    detail ∈ (invokeGroup (augTable t (pre ++ d :: post)) (d.name :: args)).2 := by
  have hget := get_augTable_last t pre post d hpost
  have hcmd : cmdOf d = brokenCommand d.name detail := by
    unfold cmdOf
    rw [hres]
  rw [hcmd] at hget
  constructor
  · simp [invokeGroup, hget, brokenCommand]
  · simp [invokeGroup, hget, brokenCommand]

/-- Witness for C2: the broken descriptor invoked with a help flag. -/
theorem c2_broken_invocation_always_fails_witness :
    (invokeGroup (augTable [] ([] ++ brokenD :: [])) (brokenD.name :: ["--help"])).1 ≠ 0 ∧
    "boom" ∈ (invokeGroup (augTable [] ([] ++ brokenD :: [])) (brokenD.name :: ["--help"])).2 :=
  c2_broken_invocation_always_fails [] [] [] brokenD "boom" ["--help"] rfl (by simp)

/-- Claim C3: invoking the bare augmented group exits 0 no matter how many
descriptors failed to load, and its listing contains every descriptor's
name — failed ones alongside loaded ones. -/
theorem c3_bare_group_exits_zero (ds : List Descriptor) (t t' : Table)
    (h : with_plugins ds (.group t) = .ok (.group t')) :
    (invokeGroup t' []).1 = 0 ∧ ∀ d ∈ ds, d.name ∈ (invokeGroup t' []).2 := by
  have ht' : augTable t ds = t' := by
    simpa [with_plugins] using h
  subst ht'
  exact ⟨rfl, fun d hd => mem_keys_augTable_self ds t d hd⟩

/-- Witness for C3 at a group whose only plugin is broken. -/
theorem c3_bare_group_exits_zero_witness :
    (invokeGroup (augTable [] [brokenD]) []).1 = 0 ∧
    brokenD.name ∈ (invokeGroup (augTable [] [brokenD]) []).2 :=
  ⟨(c3_bare_group_exits_zero [brokenD] [] (augTable [] [brokenD]) rfl).1,
   (c3_bare_group_exits_zero [brokenD] [] (augTable [] [brokenD]) rfl).2 brokenD (by simp)⟩

/-- Claim C4: starting from a duplicate-free subcommand table, after
augmentation each descriptor's name appears exactly once as a key — never
dropped, never duplicated — whether its resolution succeeded or failed. -/
theorem c4_each_name_exactly_once (ds : List Descriptor) (t : Table)
    (hnd : (keys t).Nodup) :
    ∀ d ∈ ds, (keys (augTable t ds)).count d.name = 1 :=
  fun d hd => List.count_eq_one_of_mem (nodup_keys_augTable ds t hnd)
    (mem_keys_augTable_self ds t d hd)

/-- Witness for C4: two descriptors sharing the name `a` still yield exactly
one key. -/
theorem c4_each_name_exactly_once_witness :
    (keys (augTable [] [goodD1, goodD2])).count goodD2.name = 1 :=
  c4_each_name_exactly_once [goodD1, goodD2] [] (by simp [keys]) goodD2 (by simp)

/-- Claim C5: augmenting a target that is not a group raises the usage/type
error immediately, identically for every descriptor sequence (so before any
descriptor is resolved), and the result is the error — never a stub. -/
theorem c5_non_group_type_error (ds : List Descriptor) (c : Cmd) :
    with_plugins ds (.command c) = .error .typeError ∧
    with_plugins ds (.command c) = with_plugins [] (.command c) :=
  ⟨rfl, rfl⟩

/-- Counterexample to C6 as stated: descriptor `goodD1` resolves to `cmdOne`,
yet invoking the augmented group under its name dispatches to the later
duplicate `cmdTwo`, not to `cmdOne`. -/
theorem c6_counterexample :
    goodD1 ∈ [goodD1, goodD2] ∧ resolve goodD1 = .ok cmdOne ∧
    invokeGroup (augTable [] [goodD1, goodD2]) (goodD1.name :: ["x"]) ≠
      cmdOne.invoke ["x"] :=
  ⟨by simp, rfl, by decide⟩

/-- Claim C6 (amended): for a descriptor whose loader succeeds with a valid
command and whose name is not re-used by a later descriptor, invoking the
augmented group with that name and arguments dispatches exactly to the loaded
command, returning its exit status (and output) unchanged. -/
theorem c6_dispatch_to_loaded (t : Table) (pre post : List Descriptor)
    (d : Descriptor) (c : Cmd) (args : List String)
    (hres : resolve d = .ok c)
    (hpost : ∀ d' ∈ post, d'.name ≠ d.name) :
    invokeGroup (augTable t (pre ++ d :: post)) (d.name :: args) = c.invoke args := by
  have hget := get_augTable_last t pre post d hpost
  have hcmd : cmdOf d = c := by
    unfold cmdOf
    rw [hres]
  rw [hcmd] at hget
  simp [invokeGroup, hget]

/-- Witness for C6 (amended) at the concrete good descriptor. -/
theorem c6_dispatch_to_loaded_witness :
    invokeGroup (augTable [] ([] ++ goodD1 :: [])) (goodD1.name :: ["x"]) =
      cmdOne.invoke ["x"] :=
  c6_dispatch_to_loaded [] [] [] goodD1 cmdOne ["x"] rfl (by simp)

/-- Claim C7: on a name clash — between two plugin descriptors or between a
plugin and a pre-existing subcommand — the entry installed last in descriptor
order wins: the final table maps that name to the last such descriptor's
command or stub. -/
theorem c7_last_insert_wins (t : Table) (pre post : List Descriptor) (d : Descriptor)
    (hpost : ∀ d' ∈ post, d'.name ≠ d.name) :
    get_command (augTable t (pre ++ d :: post)) d.name = some (cmdOf d) := by
  rw [augTable_append, augTable_cons, get_augTable_of_not_mem post _ _ hpost,
    get_add_command_self]

/-- Witness for C7: the name `a` clashes with a pre-existing entry and an
earlier descriptor; the last descriptor's command is the one found. -/
theorem c7_last_insert_wins_witness :
    get_command (augTable [("a", cmdOne)] ([goodD1] ++ goodD2 :: [])) goodD2.name =
      some (cmdOf goodD2) :=
  c7_last_insert_wins [("a", cmdOne)] [goodD1] [] goodD2 (by simp)

/-- Claim C8: augmentation only inserts — augmenting with zero descriptors
returns the group unchanged, a name not used by any descriptor resolves
exactly as before, and the sub-table of entries outside the descriptor names
is preserved verbatim. -/
theorem c8_only_inserts (t : Table) (ds : List Descriptor) :
    with_plugins [] (.group t) = .ok (.group t) ∧
    (∀ n, n ∉ ds.map Descriptor.name →
      get_command (augTable t ds) n = get_command t n) ∧
    filterOut (ds.map Descriptor.name) (augTable t ds) =
      filterOut (ds.map Descriptor.name) t := by
  refine ⟨rfl, ?_, ?_⟩
  · intro n hn
    exact get_augTable_of_not_mem ds t n
      (fun d hd hc => hn (hc ▸ List.mem_map.mpr ⟨d, hd, rfl⟩))
  · exact filterOut_augTable ds t _ (fun d hd => List.mem_map.mpr ⟨d, hd, rfl⟩)

/-- Witness for C8: a pre-existing entry `z` is untouched by augmentation
with the broken descriptor. -/
theorem c8_only_inserts_witness :
    with_plugins [] (.group [("z", cmdOne)]) = .ok (.group [("z", cmdOne)]) ∧
    get_command (augTable [("z", cmdOne)] [brokenD]) "z" =
      get_command [("z", cmdOne)] "z" ∧
    filterOut ([brokenD].map Descriptor.name) (augTable [("z", cmdOne)] [brokenD]) =
      filterOut ([brokenD].map Descriptor.name) [("z", cmdOne)] :=
  ⟨(c8_only_inserts [("z", cmdOne)] [brokenD]).1,
   (c8_only_inserts [("z", cmdOne)] [brokenD]).2.1 "z" (by simp [brokenD]),
   (c8_only_inserts [("z", cmdOne)] [brokenD]).2.2⟩

/-- Claim C9: a registry-group identifier that the discovery collaborator
expands to a descriptor sequence augments a target exactly as supplying that
sequence directly — the same result, and identical invocation behaviour of
the augmented table. -/
theorem c9_source_shapes_equivalent (registry : String → List Descriptor)
    (ident : String) (ds : List Descriptor) (t : Target)
    (h : registry ident = ds) :
    with_plugins_source registry (.registryGroup ident) t =
      with_plugins_source registry (.direct ds) t ∧
    (∀ tbl args,
      invokeGroup (augTable tbl (materialize registry (.registryGroup ident))) args =
        invokeGroup (augTable tbl (materialize registry (.direct ds))) args) := by
  subst h
  exact ⟨rfl, fun tbl args => rfl⟩

/-- Witness for C9 at a one-entry registry. -/
theorem c9_source_shapes_equivalent_witness :
    with_plugins_source (fun _ => [goodD1]) (.registryGroup "g") (.group []) =
      with_plugins_source (fun _ => [goodD1]) (.direct [goodD1]) (.group []) :=
  (c9_source_shapes_equivalent (fun _ => [goodD1]) "g" [goodD1] (.group []) rfl).1

end ClickPlugins
